import Mathlib

/-!
Shallow embedding of the Minesweeper game engine of
src/X-Assignments/X-Minesweeper.py (class Minesweeper).

The board stores, per cell, either a mine marker or an adjacency count
(Python stores the string M or an int); the visible board stores, per
cell, hidden (the blank string), flagged (F) or the revealed value
(str of the board value).  The grids are total functions from
coordinates, with the dimensions rows and cols alongside; the Python
methods reveal, flag, check_win, _get_neighbors and _calculate_numbers
are translated one to one.  The recursive reveal is given explicit
fuel; rows * cols + 1 exceeds the recursion depth of the Python
original (each recursive entry requires a hidden cell and reveals it),
so the fueled function agrees with the unbounded recursion.
-/

/-- A cell of the underlying board: the Python code stores the string M
for a mine and otherwise an integer adjacency count. -/
inductive CellVal where
  | mine : CellVal
  | num : Nat → CellVal
deriving DecidableEq

/-- A cell of the visible board: the Python code stores a blank for a
hidden cell, F for a flagged cell, and the string of the board value for
a revealed cell. -/
inductive Vis where
  | hidden : Vis
  | flagged : Vis
  | revealed : CellVal → Vis
deriving DecidableEq

/-- Point update of a two-argument function, modelling a single
assignment grid[r][c] = x. -/
def updf {α : Type} (f : Nat → Nat → α) (r c : Nat) (x : α) : Nat → Nat → α :=
  fun i j => if i = r ∧ j = c then x else f i j

/-- The state of class Minesweeper: dimensions, mine count, the board
produced by mine placement and number calculation, the visible board,
and the two outcome flags game_over and win. -/
structure Minesweeper where
  rows : Nat
  cols : Nat
  num_mines : Nat
  board : Nat → Nat → CellVal
  visible : Nat → Nat → Vis
  game_over : Bool
  win : Bool

/-- The body of _get_neighbors over integer coordinates: i ranges over
range(r - 1, r + 2), j over range(c - 1, c + 2), and a pair is kept when
0 <= i < rows, 0 <= j < cols and (i, j) != (r, c).  Kept on Int so that
the same definition also serves the model of Python calls made with
negative indices. -/
def neighborsInt (rows cols : Nat) (r c : Int) : List (Int × Int) :=
  [r - 1, r, r + 1].flatMap (fun i =>
    [c - 1, c, c + 1].filterMap (fun j =>
      if 0 ≤ i ∧ i < (rows : Int) ∧ 0 ≤ j ∧ j < (cols : Int) ∧ ¬(i = r ∧ j = c)
      then some (i, j) else none))

/-- Minesweeper._get_neighbors at natural-number coordinates, as the
rest of the class calls it. -/
def Minesweeper.get_neighbors (g : Minesweeper) (r c : Nat) : List (Nat × Nat) :=
  (neighborsInt g.rows g.cols r c).map (fun p => (p.1.toNat, p.2.toNat))

/-- The count computed inside _calculate_numbers for one cell: the
number of neighbors whose board value is the mine marker. -/
def Minesweeper.mineAdj (g : Minesweeper) (r c : Nat) : Nat :=
  (g.get_neighbors r c).countP (fun p => decide (g.board p.1 p.2 = CellVal.mine))

/-- Minesweeper._calculate_numbers: every in-range non-mine cell is
overwritten with its adjacency count (the loop reads only mine-ness of
neighbors, which it never changes, so the in-place Python loop is
order-independent and equals this simultaneous update). -/
def Minesweeper.calculate_numbers (g : Minesweeper) : Minesweeper :=
  { g with board := fun r c =>
      if r < g.rows ∧ c < g.cols ∧ g.board r c ≠ CellVal.mine
      then CellVal.num (g.mineAdj r c) else g.board r c }

/-- The count taken in check_win: the number of in-range cells whose
visible value is the blank (hidden) marker.  Flagged cells are not
counted. -/
def Minesweeper.hiddenCount (g : Minesweeper) : Nat :=
  (((Finset.range g.rows) ×ˢ (Finset.range g.cols)).filter
    (fun p => g.visible p.1 p.2 = Vis.hidden)).card

/-- The number of in-range mine cells of the board. -/
def Minesweeper.mineCount (g : Minesweeper) : Nat :=
  (((Finset.range g.rows) ×ˢ (Finset.range g.cols)).filter
    (fun p => g.board p.1 p.2 = CellVal.mine)).card

/-- Minesweeper.check_win: count the hidden cells; when the count equals
num_mines set win and game_over. -/
def Minesweeper.check_win (g : Minesweeper) : Minesweeper :=
  if g.hiddenCount = g.num_mines then { g with win := true, game_over := true } else g

/-- Minesweeper.reveal with explicit fuel.  The guard, the mine branch,
the reveal assignment, the cascade over neighbors that are currently
hidden, and the final check_win call follow the Python method line by
line. -/
def Minesweeper.revealF : Nat → Minesweeper → Nat → Nat → Minesweeper
  | 0, g, _, _ => g
  | fuel + 1, g, r, c =>
    if g.game_over = true ∨ g.visible r c ≠ Vis.hidden then g
    else if g.board r c = CellVal.mine then
      { g with game_over := true,
               visible := updf g.visible r c (Vis.revealed CellVal.mine) }
    else
      let g1 : Minesweeper :=
        { g with visible := updf g.visible r c (Vis.revealed (g.board r c)) }
      let g2 : Minesweeper :=
        if g.board r c = CellVal.num 0 then
          (g.get_neighbors r c).foldl
            (fun acc p =>
              if acc.visible p.1 p.2 = Vis.hidden
              then Minesweeper.revealF fuel acc p.1 p.2 else acc)
            g1
        else g1
      g2.check_win

/-- Minesweeper.reveal.  rows * cols + 1 fuel is enough for the Python
recursion depth, which is bounded by the number of hidden cells. -/
def Minesweeper.reveal (g : Minesweeper) (r c : Nat) : Minesweeper :=
  Minesweeper.revealF (g.rows * g.cols + 1) g r c

/-- Minesweeper.flag: no-op when game_over or when the cell is neither
hidden nor flagged; otherwise toggle hidden and flagged. -/
def Minesweeper.flag (g : Minesweeper) (r c : Nat) : Minesweeper :=
  if g.game_over = true ∨ (g.visible r c ≠ Vis.hidden ∧ g.visible r c ≠ Vis.flagged) then g
  else if g.visible r c = Vis.hidden then
    { g with visible := updf g.visible r c Vis.flagged }
  else if g.visible r c = Vis.flagged then
    { g with visible := updf g.visible r c Vis.hidden }
  else g

/-- Minesweeper._place_mines, with the stream of random (r, c) draws
made explicit as a list.  The Python loop runs while mines_placed is
below num_mines, marking a drawn cell and incrementing exactly when the
cell is not yet a mine.  none means the provided draws were exhausted
with the loop still running, that is, the loop has not terminated within
that many iterations. -/
def placeMinesAux (num_mines : Nat) :
    List (Nat × Nat) → (Nat → Nat → CellVal) → Nat → Option (Nat → Nat → CellVal)
  | picks, b, placed =>
    if num_mines ≤ placed then some b
    else
      match picks with
      | [] => none
      | (r, c) :: rest =>
        if b r c = CellVal.mine then placeMinesAux num_mines rest b placed
        else placeMinesAux num_mines rest (updf b r c CellVal.mine) (placed + 1)

/-- Minesweeper.__init__: a rows x cols board of zeros, an all-hidden
visible board, flags cleared, then _place_mines (consuming the given
random draws) and _calculate_numbers.  There is no validation of rows,
cols or num_mines anywhere in the constructor. -/
def Minesweeper.init (rows cols num_mines : Nat) (picks : List (Nat × Nat)) :
    Option Minesweeper :=
  (placeMinesAux num_mines picks (fun _ _ => CellVal.num 0) 0).map fun b =>
    Minesweeper.calculate_numbers
      { rows := rows, cols := cols, num_mines := num_mines, board := b,
        visible := fun _ _ => Vis.hidden, game_over := false, win := false }

/-!
Model of the Python list indexing semantics, for calls made with
coordinates outside the grid: a Python list of length n accepts indices
in [-n, n), a negative index i meaning element n + i, and raises
IndexError (modelled as none) otherwise.
-/

/-- Resolution of a Python list index against length n. -/
def pyIdx (n : Nat) (i : Int) : Option Nat :=
  if 0 ≤ i ∧ i < (n : Int) then some i.toNat
  else if -(n : Int) ≤ i ∧ i < 0 then some ((n : Int) + i).toNat
  else none

/-- Reading self.visible_board[r][c] with raw Python indices. -/
def Minesweeper.pyGetVis (g : Minesweeper) (r c : Int) : Option Vis :=
  (pyIdx g.rows r).bind fun i => (pyIdx g.cols c).map fun j => g.visible i j

/-- Reading self.board[r][c] with raw Python indices. -/
def Minesweeper.pyGetBoard (g : Minesweeper) (r c : Int) : Option CellVal :=
  (pyIdx g.rows r).bind fun i => (pyIdx g.cols c).map fun j => g.board i j

/-- Writing self.visible_board[r][c] with raw Python indices. -/
def Minesweeper.pySetVis (g : Minesweeper) (r c : Int) (v : Vis) : Option Minesweeper :=
  (pyIdx g.rows r).bind fun i => (pyIdx g.cols c).map fun j =>
    { g with visible := updf g.visible i j v }

/-- Minesweeper.reveal called with raw Python Int indices: the guard
short-circuits on game_over before any list access; every grid access
resolves indices by the Python rules; _get_neighbors filters with the
raw coordinates (so its results are genuinely in range).  none models an
uncaught IndexError. -/
def Minesweeper.revealPyF : Nat → Minesweeper → Int → Int → Option Minesweeper
  | 0, g, _, _ => some g
  | fuel + 1, g, r, c =>
    if g.game_over = true then some g
    else
      (g.pyGetVis r c).bind fun v =>
        if v ≠ Vis.hidden then some g
        else
          (g.pyGetBoard r c).bind fun bv =>
            if bv = CellVal.mine then
              Minesweeper.pySetVis { g with game_over := true } r c (Vis.revealed CellVal.mine)
            else
              (g.pySetVis r c (Vis.revealed bv)).bind fun g1 =>
                (if bv = CellVal.num 0 then
                  (neighborsInt g.rows g.cols r c).foldlM
                    (fun acc p =>
                      (Minesweeper.pyGetVis acc p.1 p.2).bind fun w =>
                        if w = Vis.hidden then Minesweeper.revealPyF fuel acc p.1 p.2
                        else some acc)
                    g1
                 else some g1).map Minesweeper.check_win

/-- Minesweeper.reveal with raw Python indices, fueled as reveal. -/
def Minesweeper.revealPy (g : Minesweeper) (r c : Int) : Option Minesweeper :=
  Minesweeper.revealPyF (g.rows * g.cols + 1) g r c

/-- Minesweeper.flag with raw Python indices. -/
def Minesweeper.flagPy (g : Minesweeper) (r c : Int) : Option Minesweeper :=
  if g.game_over = true then some g
  else
    (g.pyGetVis r c).bind fun v =>
      if v ≠ Vis.hidden ∧ v ≠ Vis.flagged then some g
      else if v = Vis.hidden then g.pySetVis r c Vis.flagged
      else g.pySetVis r c Vis.hidden

/-!
Derived notions the claims quantify over.
-/

/-- The state a freshly constructed engine is in apart from its board:
every cell hidden, neither outcome flag set. -/
def Minesweeper.InitialState (g : Minesweeper) : Prop :=
  (∀ r c, g.visible r c = Vis.hidden) ∧ g.game_over = false ∧ g.win = false

/-- Correctness of the stored numbers: every in-range non-mine cell
stores the actual count of mine neighbors (what _calculate_numbers
establishes). -/
def Minesweeper.NumbersWF (g : Minesweeper) : Prop :=
  ∀ i j, i < g.rows → j < g.cols → g.board i j ≠ CellVal.mine →
    g.board i j = CellVal.num (g.mineAdj i j)

/-- The consequence of NumbersWF the cascade relies on: an in-range cell
storing 0 has no mine among its neighbors. -/
def Minesweeper.ZeroWF (g : Minesweeper) : Prop :=
  ∀ i j, i < g.rows → j < g.cols → g.board i j = CellVal.num 0 →
    ∀ p ∈ g.get_neighbors i j, g.board p.1 p.2 ≠ CellVal.mine

/-- Every in-range safe (non-mine) cell is no longer hidden. -/
def Minesweeper.SafeDone (g : Minesweeper) : Prop :=
  ∀ i j, i < g.rows → j < g.cols → g.board i j ≠ CellVal.mine →
    g.visible i j ≠ Vis.hidden

/-- The cells the cascade starting at (r, c) is specified to reveal: the
start cell, and, from any reached cell whose stored value is 0,
every neighbor that is currently hidden.  This is exactly the connected
region of zero cells containing (r, c) (connected through hidden cells
by the up-to-8 neighbor relation) together with the hidden cells
bordering it. -/
inductive Minesweeper.Reach (g : Minesweeper) (r c : Nat) : Nat → Nat → Prop where
  | start : Minesweeper.Reach g r c r c
  | step {i j i' j' : Nat} :
      Minesweeper.Reach g r c i j →
      g.board i j = CellVal.num 0 →
      (i', j') ∈ g.get_neighbors i j →
      g.visible i' j' = Vis.hidden →
      Minesweeper.Reach g r c i' j'

/-- States reachable from g₀ by any sequence of in-range reveal and
flag calls (the commands the engine exposes). -/
inductive Minesweeper.Reachable : Minesweeper → Minesweeper → Prop where
  | refl (g : Minesweeper) : Minesweeper.Reachable g g
  | reveal {g₀ g : Minesweeper} (r c : Nat) :
      Minesweeper.Reachable g₀ g → r < g.rows → c < g.cols →
      Minesweeper.Reachable g₀ (g.reveal r c)
  | flag {g₀ g : Minesweeper} (r c : Nat) :
      Minesweeper.Reachable g₀ g → r < g.rows → c < g.cols →
      Minesweeper.Reachable g₀ (g.flag r c)

/-- The fields reveal and flag never touch: dimensions, mine counter
and the board. -/
def Minesweeper.SameStatic (g h : Minesweeper) : Prop :=
  h.rows = g.rows ∧ h.cols = g.cols ∧ h.num_mines = g.num_mines ∧ h.board = g.board

/-- How a visible board may evolve under reveal: each cell is either
untouched or goes from hidden to revealed with its board value. -/
def Minesweeper.VisEvolve (g h : Minesweeper) : Prop :=
  ∀ i j, h.visible i j = g.visible i j ∨
    (g.visible i j = Vis.hidden ∧ h.visible i j = Vis.revealed (g.board i j))

/-- One iteration of the cascade loop of reveal: recurse into a
neighbor exactly when it is currently hidden. -/
def Minesweeper.revealStep (fuel : Nat) (acc : Minesweeper) (p : Nat × Nat) : Minesweeper :=
  if acc.visible p.1 p.2 = Vis.hidden then Minesweeper.revealF fuel acc p.1 p.2 else acc

/-- Every in-range mine cell is still hidden. -/
def Minesweeper.MinesHidden (g : Minesweeper) : Prop :=
  ∀ i j, i < g.rows → j < g.cols → g.board i j = CellVal.mine →
    g.visible i j = Vis.hidden

/-!
Concrete states used to evaluate the code at specific inputs.
-/

/-- A board with mines at the listed cells and zeros elsewhere, the
state of self.board after _place_mines. -/
def boardOfMines (mines : List (Nat × Nat)) : Nat → Nat → CellVal :=
  fun r c => if (r, c) ∈ mines then CellVal.mine else CellVal.num 0

/-- A freshly constructed engine with the given dimensions, mine count
and mine cells (the deterministic counterpart of init for a known
placement). -/
def mkGame (rows cols num_mines : Nat) (mines : List (Nat × Nat)) : Minesweeper :=
  Minesweeper.calculate_numbers
    { rows := rows, cols := cols, num_mines := num_mines,
      board := boardOfMines mines,
      visible := fun _ _ => Vis.hidden, game_over := false, win := false }

/-- 1 x 3 board, one mine at (0,0): used for the win-check evaluation. -/
def gameA : Minesweeper := mkGame 1 3 1 [(0, 0)]

/-- gameA after the player flags the safe cell (0,2). -/
def gameA1 : Minesweeper := gameA.flag 0 2

/-- gameA1 after the player reveals the safe cell (0,1). -/
def gameA2 : Minesweeper := gameA1.reveal 0 1

/-- 1 x 5 board, one mine at (0,4): used for the cascade evaluation. -/
def gameB : Minesweeper := mkGame 1 5 1 [(0, 4)]

/-- gameB after the player flags the mine cell (0,4). -/
def gameB1 : Minesweeper := gameB.flag 0 4

/-- gameB1 after the player reveals the zero cell (0,2). -/
def gameB2 : Minesweeper := gameB1.reveal 0 2

/-- 2 x 2 board, one mine at (0,0): used for the negative-index
evaluation. -/
def gameC : Minesweeper := mkGame 2 2 1 [(0, 0)]

/-- 2 x 2 board with no mines, mine counter 0: a terminal state with
game_over set, used as a concrete absorbing state. -/
def gameOverState : Minesweeper :=
  { rows := 2, cols := 2, num_mines := 0,
    board := fun _ _ => CellVal.num 0,
    visible := fun _ _ => Vis.hidden,
    game_over := true, win := true }

/-- 1 x 2 board, one mine at (0,0): revealing (0,1) wins at once, a
minimal Won state containing a mine. -/
def gameD : Minesweeper := mkGame 1 2 1 [(0, 0)]

/-- Whether a visible value is a revealed one. -/
def Vis.isRevealed : Vis → Bool
  | Vis.revealed _ => true
  | _ => false

/-!
Basic lemmas about updates, static fields and visibility evolution.
-/

theorem updf_self {α : Type} (f : Nat → Nat → α) (r c : Nat) (x : α) :
    updf f r c x r c = x := by
  simp [updf]

theorem updf_ne {α : Type} (f : Nat → Nat → α) (r c : Nat) (x : α) {i j : Nat}
    (h : ¬(i = r ∧ j = c)) : updf f r c x i j = f i j := by
  simp [updf, h]

theorem updf_cancel {α : Type} (f : Nat → Nat → α) (r c : Nat) (x : α) :
    updf (updf f r c x) r c (f r c) = f := by
  funext i j
  by_cases h : i = r ∧ j = c
  · obtain ⟨rfl, rfl⟩ := h
    simp [updf]
  · simp [updf, h]

theorem static_refl (g : Minesweeper) : g.SameStatic g :=
  ⟨rfl, rfl, rfl, rfl⟩

theorem static_trans {g h k : Minesweeper} (h1 : g.SameStatic h) (h2 : h.SameStatic k) :
    g.SameStatic k :=
  ⟨h2.1.trans h1.1, h2.2.1.trans h1.2.1, h2.2.2.1.trans h1.2.2.1, h2.2.2.2.trans h1.2.2.2⟩

theorem visEvolve_refl (g : Minesweeper) : g.VisEvolve g := fun _ _ => Or.inl rfl

theorem visEvolve_trans {g h k : Minesweeper} (h1 : g.VisEvolve h) (h2 : h.VisEvolve k)
    (hb : h.board = g.board) : g.VisEvolve k := by
  intro i j
  rcases h2 i j with e2 | ⟨hh2, e2⟩
  · rcases h1 i j with e1 | ⟨hh1, e1⟩
    · exact Or.inl (e2.trans e1)
    · exact Or.inr ⟨hh1, e2.trans e1⟩
  · rcases h1 i j with e1 | ⟨hh1, e1⟩
    · exact Or.inr ⟨e1 ▸ hh2, by rw [e2, hb]⟩
    · rw [e1] at hh2; cases hh2

theorem visEvolve_hidden_back {g h : Minesweeper} (he : g.VisEvolve h) {i j : Nat}
    (hh : h.visible i j = Vis.hidden) : g.visible i j = Vis.hidden := by
  rcases he i j with e | ⟨e1, e2⟩
  · rw [← e, hh]
  · rw [hh] at e2; cases e2

theorem visEvolve_flagged_iff {g h : Minesweeper} (he : g.VisEvolve h) (i j : Nat) :
    h.visible i j = Vis.flagged ↔ g.visible i j = Vis.flagged := by
  rcases he i j with e | ⟨e1, e2⟩
  · rw [e]
  · rw [e1, e2]; simp

theorem visEvolve_nonhidden {g h : Minesweeper} (he : g.VisEvolve h) {i j : Nat}
    (hn : g.visible i j ≠ Vis.hidden) : h.visible i j = g.visible i j := by
  rcases he i j with e | ⟨e1, _⟩
  · exact e
  · exact absurd e1 hn

theorem foldl_induction {α β : Type} (f : α → β → α) (l : List β) (a : α)
    (P : α → Prop) (h : P a) (hf : ∀ x b, b ∈ l → P x → P (f x b)) :
    P (l.foldl f a) := by
  induction l generalizing a with
  | nil => exact h
  | cons p rest ih =>
    exact ih (f a p) (hf a p (List.mem_cons_self p rest) h)
      (fun x b hb => hf x b (List.mem_cons_of_mem p hb))

/-!
Lemmas about the neighbor list.
-/

theorem mem_neighborsInt {rows cols : Nat} {r c : Int} {p : Int × Int}
    (h : p ∈ neighborsInt rows cols r c) :
    0 ≤ p.1 ∧ p.1 < (rows : Int) ∧ 0 ≤ p.2 ∧ p.2 < (cols : Int) ∧ ¬(p.1 = r ∧ p.2 = c) := by
  simp only [neighborsInt, List.mem_flatMap, List.mem_filterMap] at h
  obtain ⟨i, _, j, _, hij⟩ := h
  split at hij
  · rename_i hcond
    obtain ⟨h1, h2, h3, h4, h5⟩ := hcond
    cases hij
    exact ⟨h1, h2, h3, h4, h5⟩
  · cases hij

theorem get_neighbors_inRange {g : Minesweeper} {r c : Nat} {p : Nat × Nat}
    (h : p ∈ g.get_neighbors r c) : p.1 < g.rows ∧ p.2 < g.cols := by
  simp only [Minesweeper.get_neighbors, List.mem_map] at h
  obtain ⟨q, hq, rfl⟩ := h
  obtain ⟨h1, h2, h3, h4, _⟩ := mem_neighborsInt hq
  constructor
  · omega
  · omega

theorem get_neighbors_congr {g h : Minesweeper} (hs : g.SameStatic h) (r c : Nat) :
    h.get_neighbors r c = g.get_neighbors r c := by
  simp [Minesweeper.get_neighbors, hs.1, hs.2.1]

theorem filterMap_triple_le {α β : Type} (f : α → Option β) (a b c : α)
    (hb : f b = none) : (List.filterMap f [a, b, c]).length ≤ 2 := by
  simp only [List.filterMap_cons, hb]
  cases f a <;> cases f c <;> simp [List.filterMap]

theorem length_neighborsInt_le (rows cols : Nat) (r c : Int) :
    (neighborsInt rows cols r c).length ≤ 8 := by
  have e : neighborsInt rows cols r c =
      List.filterMap (fun j => if 0 ≤ r - 1 ∧ r - 1 < (rows : Int) ∧ 0 ≤ j ∧ j < (cols : Int) ∧
          ¬(r - 1 = r ∧ j = c) then some (r - 1, j) else none) [c - 1, c, c + 1] ++
        (List.filterMap (fun j => if 0 ≤ r ∧ r < (rows : Int) ∧ 0 ≤ j ∧ j < (cols : Int) ∧
          ¬(r = r ∧ j = c) then some (r, j) else none) [c - 1, c, c + 1] ++
          (List.filterMap (fun j => if 0 ≤ r + 1 ∧ r + 1 < (rows : Int) ∧ 0 ≤ j ∧
            j < (cols : Int) ∧ ¬(r + 1 = r ∧ j = c) then some (r + 1, j) else none)
            [c - 1, c, c + 1] ++ [])) := rfl
  have hmid : (fun j => if 0 ≤ (r : Int) ∧ r < (rows : Int) ∧ 0 ≤ j ∧ j < (cols : Int) ∧
      ¬(r = r ∧ j = c) then some ((r : Int), j) else none) c = none := by
    simp
  have h1 := List.length_filterMap_le (fun j => if 0 ≤ r - 1 ∧ r - 1 < (rows : Int) ∧ 0 ≤ j ∧
      j < (cols : Int) ∧ ¬(r - 1 = r ∧ j = c) then some (r - 1, j) else none) [c - 1, c, c + 1]
  have h3 := List.length_filterMap_le (fun j => if 0 ≤ r + 1 ∧ r + 1 < (rows : Int) ∧ 0 ≤ j ∧
      j < (cols : Int) ∧ ¬(r + 1 = r ∧ j = c) then some (r + 1, j) else none) [c - 1, c, c + 1]
  have h2 := filterMap_triple_le (fun j => if 0 ≤ (r : Int) ∧ r < (rows : Int) ∧ 0 ≤ j ∧
      j < (cols : Int) ∧ ¬(r = r ∧ j = c) then some ((r : Int), j) else none)
    (c - 1) c (c + 1) hmid
  rw [e, List.length_append, List.length_append, List.length_append]
  refine le_trans (Nat.add_le_add h1 (Nat.add_le_add h2 (Nat.add_le_add h3
    (Nat.le_refl (([] : List (Int × Int)).length))))) ?_
  simp

theorem length_get_neighbors_le (g : Minesweeper) (r c : Nat) :
    (g.get_neighbors r c).length ≤ 8 := by
  simp only [Minesweeper.get_neighbors, List.length_map]
  exact length_neighborsInt_le g.rows g.cols r c

theorem mineAdj_le_8 (g : Minesweeper) (r c : Nat) : g.mineAdj r c ≤ 8 :=
  le_trans (List.countP_le_length _) (length_get_neighbors_le g r c)

/-!
Lemmas about check_win.
-/

theorem check_win_static (g : Minesweeper) : g.SameStatic g.check_win := by
  unfold Minesweeper.check_win
  split
  · exact ⟨rfl, rfl, rfl, rfl⟩
  · exact static_refl g

theorem check_win_visible (g : Minesweeper) : g.check_win.visible = g.visible := by
  unfold Minesweeper.check_win
  split <;> rfl

theorem check_win_go_of {g : Minesweeper} (h : g.game_over = true) :
    g.check_win.game_over = true := by
  unfold Minesweeper.check_win
  split
  · rfl
  · exact h

theorem check_win_win_of {g : Minesweeper} (h : g.win = true) : g.check_win.win = true := by
  unfold Minesweeper.check_win
  split
  · rfl
  · exact h

theorem check_win_go_inv {g : Minesweeper} (h : g.check_win.game_over = true) :
    g.game_over = true ∨ g.hiddenCount = g.num_mines := by
  unfold Minesweeper.check_win at h
  split at h
  · right; assumption
  · left; exact h

theorem check_win_winGO {g : Minesweeper} (hI : g.win = true → g.game_over = true) :
    g.check_win.win = true → g.check_win.game_over = true := by
  unfold Minesweeper.check_win
  split
  · intro; rfl
  · exact hI

theorem check_win_eq_self {g : Minesweeper} (h : g.hiddenCount ≠ g.num_mines) :
    g.check_win = g := by
  unfold Minesweeper.check_win
  rw [if_neg h]

theorem check_win_fired {g : Minesweeper} (h : g.hiddenCount = g.num_mines) :
    g.check_win.win = true ∧ g.check_win.game_over = true := by
  unfold Minesweeper.check_win
  rw [if_pos h]
  exact ⟨rfl, rfl⟩

/-!
Lemmas about hiddenCount.
-/

theorem hiddenCount_le (g : Minesweeper) : g.hiddenCount ≤ g.rows * g.cols := by
  unfold Minesweeper.hiddenCount
  calc ((Finset.range g.rows ×ˢ Finset.range g.cols).filter
      (fun p => g.visible p.1 p.2 = Vis.hidden)).card
      ≤ ((Finset.range g.rows) ×ˢ (Finset.range g.cols)).card := Finset.card_filter_le _ _
    _ = g.rows * g.cols := by rw [Finset.card_product, Finset.card_range, Finset.card_range]

theorem hiddenCount_congr {g h : Minesweeper} (hr : h.rows = g.rows) (hc : h.cols = g.cols)
    (hv : h.visible = g.visible) : h.hiddenCount = g.hiddenCount := by
  unfold Minesweeper.hiddenCount
  rw [hr, hc, hv]

theorem hiddenCount_updf {g : Minesweeper} {r c : Nat} {x : Vis} (hr : r < g.rows)
    (hc : c < g.cols) (hv : g.visible r c = Vis.hidden) (hx : x ≠ Vis.hidden) :
    Minesweeper.hiddenCount { g with visible := updf g.visible r c x } + 1 = g.hiddenCount := by
  have hmem : ((r, c) : Nat × Nat) ∈ (Finset.range g.rows ×ˢ Finset.range g.cols).filter
      (fun p => g.visible p.1 p.2 = Vis.hidden) := by
    simp [Finset.mem_filter, Finset.mem_product, hr, hc, hv]
  have hset : (Finset.range g.rows ×ˢ Finset.range g.cols).filter
        (fun p => updf g.visible r c x p.1 p.2 = Vis.hidden) =
      ((Finset.range g.rows ×ˢ Finset.range g.cols).filter
        (fun p => g.visible p.1 p.2 = Vis.hidden)).erase (r, c) := by
    ext p
    simp only [Finset.mem_filter, Finset.mem_erase, Finset.mem_product, Finset.mem_range]
    constructor
    · rintro ⟨⟨h1, h2⟩, h3⟩
      by_cases hp : p = (r, c)
      · subst hp
        rw [updf_self] at h3
        exact absurd h3 hx
      · have hne : ¬(p.1 = r ∧ p.2 = c) := by
          rintro ⟨e1, e2⟩
          exact hp (Prod.ext e1 e2)
        rw [updf_ne _ _ _ _ hne] at h3
        exact ⟨hp, ⟨h1, h2⟩, h3⟩
    · rintro ⟨hp, ⟨h1, h2⟩, h3⟩
      have hne : ¬(p.1 = r ∧ p.2 = c) := by
        rintro ⟨e1, e2⟩
        exact hp (Prod.ext e1 e2)
      exact ⟨⟨h1, h2⟩, by rw [updf_ne _ _ _ _ hne]; exact h3⟩
  show ((Finset.range g.rows ×ˢ Finset.range g.cols).filter
      (fun p => updf g.visible r c x p.1 p.2 = Vis.hidden)).card + 1 = g.hiddenCount
  rw [hset, Finset.card_erase_of_mem hmem]
  have hpos : 0 < ((Finset.range g.rows ×ˢ Finset.range g.cols).filter
      (fun p => g.visible p.1 p.2 = Vis.hidden)).card :=
    Finset.card_pos.mpr ⟨_, hmem⟩
  unfold Minesweeper.hiddenCount
  omega

theorem hiddenCount_mono {g h : Minesweeper} (hr : h.rows = g.rows) (hc : h.cols = g.cols)
    (he : g.VisEvolve h) : h.hiddenCount ≤ g.hiddenCount := by
  unfold Minesweeper.hiddenCount
  rw [hr, hc]
  apply Finset.card_le_card
  intro p hp
  simp only [Finset.mem_filter] at hp ⊢
  exact ⟨hp.1, visEvolve_hidden_back he hp.2⟩

/-!
Lemmas about flag.
-/

theorem flag_static (g : Minesweeper) (r c : Nat) : g.SameStatic (g.flag r c) := by
  unfold Minesweeper.flag
  split
  · exact static_refl g
  · split
    · exact ⟨rfl, rfl, rfl, rfl⟩
    · split
      · exact ⟨rfl, rfl, rfl, rfl⟩
      · exact static_refl g

theorem flag_gameOver (g : Minesweeper) (r c : Nat) :
    (g.flag r c).game_over = g.game_over := by
  unfold Minesweeper.flag
  split
  · rfl
  · split
    · rfl
    · split <;> rfl

theorem flag_win (g : Minesweeper) (r c : Nat) : (g.flag r c).win = g.win := by
  unfold Minesweeper.flag
  split
  · rfl
  · split
    · rfl
    · split <;> rfl

theorem flag_revealed_iff (g : Minesweeper) (r c i j : Nat) (v : CellVal) :
    ((g.flag r c).visible i j = Vis.revealed v) ↔ (g.visible i j = Vis.revealed v) := by
  unfold Minesweeper.flag
  split
  · exact Iff.rfl
  · split
    · rename_i hguard hhid
      by_cases hij : i = r ∧ j = c
      · obtain ⟨rfl, rfl⟩ := hij
        rw [show ({ g with visible := updf g.visible i j Vis.flagged } : Minesweeper).visible =
          updf g.visible i j Vis.flagged from rfl, updf_self, hhid]
        simp
      · rw [show ({ g with visible := updf g.visible r c Vis.flagged } : Minesweeper).visible =
          updf g.visible r c Vis.flagged from rfl, updf_ne _ _ _ _ hij]
    · split
      · rename_i hguard hhid hflag
        by_cases hij : i = r ∧ j = c
        · obtain ⟨rfl, rfl⟩ := hij
          rw [show ({ g with visible := updf g.visible i j Vis.hidden } : Minesweeper).visible =
            updf g.visible i j Vis.hidden from rfl, updf_self, hflag]
          simp
        · rw [show ({ g with visible := updf g.visible r c Vis.hidden } : Minesweeper).visible =
            updf g.visible r c Vis.hidden from rfl, updf_ne _ _ _ _ hij]
      · exact Iff.rfl

/-!
The one-step unfolding of revealF and its structural invariants.
-/

theorem revealF_succ (fuel : Nat) (g : Minesweeper) (r c : Nat) :
    Minesweeper.revealF (fuel + 1) g r c =
      if g.game_over = true ∨ g.visible r c ≠ Vis.hidden then g
      else if g.board r c = CellVal.mine then
        { g with game_over := true,
                 visible := updf g.visible r c (Vis.revealed CellVal.mine) }
      else
        Minesweeper.check_win
          (if g.board r c = CellVal.num 0 then
            (g.get_neighbors r c).foldl (Minesweeper.revealStep fuel)
              { g with visible := updf g.visible r c (Vis.revealed (g.board r c)) }
          else { g with visible := updf g.visible r c (Vis.revealed (g.board r c)) }) := rfl

theorem revealF_gameOver {fuel : Nat} {g : Minesweeper} (h : g.game_over = true) (r c : Nat) :
    Minesweeper.revealF fuel g r c = g := by
  cases fuel with
  | zero => rfl
  | succ n => rw [revealF_succ, if_pos (Or.inl h)]

theorem visEvolve_updf {g : Minesweeper} {r c : Nat} (hv : g.visible r c = Vis.hidden) :
    g.VisEvolve { g with visible := updf g.visible r c (Vis.revealed (g.board r c)) } := by
  intro i j
  by_cases hij : i = r ∧ j = c
  · obtain ⟨rfl, rfl⟩ := hij
    refine Or.inr ⟨hv, ?_⟩
    show updf g.visible i j (Vis.revealed (g.board i j)) i j = Vis.revealed (g.board i j)
    rw [updf_self]
  · exact Or.inl (show updf g.visible r c (Vis.revealed (g.board r c)) i j = g.visible i j from
      updf_ne _ _ _ _ hij)

theorem visEvolve_updf_mine {g : Minesweeper} {r c : Nat} (hv : g.visible r c = Vis.hidden)
    (hm : g.board r c = CellVal.mine) :
    g.VisEvolve
      { g with game_over := true,
               visible := updf g.visible r c (Vis.revealed CellVal.mine) } := by
  intro i j
  by_cases hij : i = r ∧ j = c
  · obtain ⟨rfl, rfl⟩ := hij
    refine Or.inr ⟨hv, ?_⟩
    show updf g.visible i j (Vis.revealed CellVal.mine) i j = Vis.revealed (g.board i j)
    rw [updf_self, hm]
  · exact Or.inl (updf_ne _ _ _ _ hij)

theorem visEvolve_check_win {g x : Minesweeper} (h : g.VisEvolve x) :
    g.VisEvolve x.check_win := by
  intro i j
  rw [check_win_visible]
  exact h i j

theorem revealF_basic : ∀ (fuel : Nat) (g : Minesweeper) (r c : Nat),
    g.SameStatic (Minesweeper.revealF fuel g r c) ∧
      g.VisEvolve (Minesweeper.revealF fuel g r c) := by
  intro fuel
  induction fuel with
  | zero => intro g r c; exact ⟨static_refl g, visEvolve_refl g⟩
  | succ n ih =>
    intro g r c
    rw [revealF_succ]
    split
    · exact ⟨static_refl g, visEvolve_refl g⟩
    next hguard =>
      push_neg at hguard
      split
      next hm =>
        exact ⟨⟨rfl, rfl, rfl, rfl⟩, visEvolve_updf_mine hguard.2 hm⟩
      next hm =>
        have hfold : ∀ (l : List (Nat × Nat)) (a : Minesweeper),
            g.SameStatic a ∧ g.VisEvolve a →
            g.SameStatic (l.foldl (Minesweeper.revealStep n) a) ∧
              g.VisEvolve (l.foldl (Minesweeper.revealStep n) a) := by
          intro l a ha
          refine foldl_induction _ l a (fun x => g.SameStatic x ∧ g.VisEvolve x) ha ?_
          intro x p hp hx
          unfold Minesweeper.revealStep
          split
          · have hb := ih x p.1 p.2
            exact ⟨static_trans hx.1 hb.1, visEvolve_trans hx.2 hb.2 hx.1.2.2.2⟩
          · exact hx
        have hone : g.SameStatic
              { g with visible := updf g.visible r c (Vis.revealed (g.board r c)) } ∧
            g.VisEvolve
              { g with visible := updf g.visible r c (Vis.revealed (g.board r c)) } :=
          ⟨⟨rfl, rfl, rfl, rfl⟩, visEvolve_updf hguard.2⟩
        split
        · have h2 := hfold (g.get_neighbors r c) _ hone
          exact ⟨static_trans h2.1 (check_win_static _), visEvolve_check_win h2.2⟩
        · exact ⟨static_trans hone.1 (check_win_static _), visEvolve_check_win hone.2⟩

theorem revealF_static (fuel : Nat) (g : Minesweeper) (r c : Nat) :
    g.SameStatic (Minesweeper.revealF fuel g r c) :=
  (revealF_basic fuel g r c).1

theorem revealF_evolve (fuel : Nat) (g : Minesweeper) (r c : Nat) :
    g.VisEvolve (Minesweeper.revealF fuel g r c) :=
  (revealF_basic fuel g r c).2

theorem revealF_winGO : ∀ (fuel : Nat) (g : Minesweeper) (r c : Nat),
    (g.win = true → g.game_over = true) →
    ((Minesweeper.revealF fuel g r c).win = true →
      (Minesweeper.revealF fuel g r c).game_over = true) := by
  intro fuel
  induction fuel with
  | zero => intro g r c hI; exact hI
  | succ n ih =>
    intro g r c hI
    rw [revealF_succ]
    split
    · exact hI
    · split
      · intro; rfl
      · refine check_win_winGO ?_
        split
        · refine foldl_induction _ _ _
            (fun x : Minesweeper => x.win = true → x.game_over = true) hI ?_
          intro x p hp hx
          unfold Minesweeper.revealStep
          split
          · exact ih x p.1 p.2 hx
          · exact hx
        · exact hI

theorem zeroWF_congr {g h : Minesweeper} (hs : g.SameStatic h) (hz : g.ZeroWF) : h.ZeroWF := by
  intro i j hi hj hb p hp
  rw [hs.1] at hi
  rw [hs.2.1] at hj
  rw [hs.2.2.2] at hb
  rw [get_neighbors_congr hs] at hp
  rw [hs.2.2.2]
  exact hz i j hi hj hb p hp

theorem revealF_mines_vis : ∀ (fuel : Nat) (g : Minesweeper) (r c : Nat), g.ZeroWF →
    r < g.rows → c < g.cols → g.board r c ≠ CellVal.mine →
    ∀ i j, g.board i j = CellVal.mine →
      (Minesweeper.revealF fuel g r c).visible i j = g.visible i j := by
  intro fuel
  induction fuel with
  | zero => intros; rfl
  | succ n ih =>
    intro g r c hz hr hc hnm i j hmij
    rw [revealF_succ]
    have hone : ({ g with visible := updf g.visible r c (Vis.revealed (g.board r c)) } :
        Minesweeper).visible i j = g.visible i j := by
      show updf g.visible r c (Vis.revealed (g.board r c)) i j = g.visible i j
      refine updf_ne _ _ _ _ ?_
      rintro ⟨rfl, rfl⟩
      exact hnm hmij
    by_cases hg : g.game_over = true ∨ g.visible r c ≠ Vis.hidden
    · rw [if_pos hg]
    · rw [if_neg hg, if_neg hnm, check_win_visible]
      by_cases hzero : g.board r c = CellVal.num 0
      · rw [if_pos hzero]
        refine (foldl_induction (Minesweeper.revealStep n) (g.get_neighbors r c) _
          (fun x : Minesweeper => g.SameStatic x ∧ x.visible i j = g.visible i j)
          ?_ ?_).2
        · exact ⟨⟨rfl, rfl, rfl, rfl⟩, hone⟩
        intro x p hp hx
        unfold Minesweeper.revealStep
        split
        · refine ⟨static_trans hx.1 (revealF_static n x p.1 p.2), ?_⟩
          have hzx : x.ZeroWF := zeroWF_congr hx.1 hz
          have hpr := get_neighbors_inRange hp
          have hpm : x.board p.1 p.2 ≠ CellVal.mine := by
            rw [hx.1.2.2.2]
            exact hz r c hr hc hzero p hp
          have hxm : x.board i j = CellVal.mine := by
            rw [hx.1.2.2.2]
            exact hmij
          rw [ih x p.1 p.2 hzx (by rw [hx.1.1]; exact hpr.1) (by rw [hx.1.2.1]; exact hpr.2)
            hpm i j hxm]
          exact hx.2
        · exact hx
      · rw [if_neg hzero]
        exact hone

/-!
Lemmas about the Reach closure and soundness of the cascade: every cell
the code changes lies in the Reach closure of the starting cell.
-/

theorem reach_inRange {g : Minesweeper} {r c : Nat} (hr : r < g.rows) (hc : c < g.cols) :
    ∀ {i j : Nat}, g.Reach r c i j → i < g.rows ∧ j < g.cols := by
  intro i j h
  induction h with
  | start => exact ⟨hr, hc⟩
  | step h1 hb hmem hhid ih => exact get_neighbors_inRange hmem

theorem reach_hidden {g : Minesweeper} {r c : Nat} (hv : g.visible r c = Vis.hidden) :
    ∀ {i j : Nat}, g.Reach r c i j → g.visible i j = Vis.hidden := by
  intro i j h
  induction h with
  | start => exact hv
  | step h1 hb hmem hhid ih => exact hhid

theorem reach_mono {g h : Minesweeper} (hs : g.SameStatic h)
    (hh : ∀ i j, h.visible i j = Vis.hidden → g.visible i j = Vis.hidden)
    {r c a b : Nat} (hstart : g.Reach r c a b) :
    ∀ {i j : Nat}, h.Reach a b i j → g.Reach r c i j := by
  intro i j hreach
  induction hreach with
  | start => exact hstart
  | step h1 hb hmem hhid ih =>
    refine Minesweeper.Reach.step ih ?_ ?_ ?_
    · rw [← hs.2.2.2]
      exact hb
    · rw [← get_neighbors_congr hs]
      exact hmem
    · exact hh _ _ hhid

theorem revealF_changed : ∀ (fuel : Nat) (g : Minesweeper) (r c i j : Nat),
    (Minesweeper.revealF fuel g r c).visible i j ≠ g.visible i j →
    g.Reach r c i j ∧ g.visible i j = Vis.hidden := by
  intro fuel
  induction fuel with
  | zero => intro g r c i j hne; exact absurd rfl hne
  | succ n ih =>
    intro g r c i j hne
    rw [revealF_succ] at hne
    by_cases hg : g.game_over = true ∨ g.visible r c ≠ Vis.hidden
    · rw [if_pos hg] at hne
      exact absurd rfl hne
    · rw [if_neg hg] at hne
      push_neg at hg
      by_cases hm : g.board r c = CellVal.mine
      · rw [if_pos hm] at hne
        by_cases hij : i = r ∧ j = c
        · obtain ⟨rfl, rfl⟩ := hij
          exact ⟨Minesweeper.Reach.start, hg.2⟩
        · have heq : updf g.visible r c (Vis.revealed CellVal.mine) i j = g.visible i j :=
            updf_ne _ _ _ _ hij
          exact absurd heq hne
      · rw [if_neg hm, check_win_visible] at hne
        by_cases hzero : g.board r c = CellVal.num 0
        · rw [if_pos hzero] at hne
          refine ((foldl_induction (Minesweeper.revealStep n) (g.get_neighbors r c) _
            (fun x : Minesweeper => g.SameStatic x ∧
              (∀ a b, x.visible a b = Vis.hidden → g.visible a b = Vis.hidden) ∧
              (∀ a b, x.visible a b ≠ g.visible a b →
                g.Reach r c a b ∧ g.visible a b = Vis.hidden))
            ?_ ?_).2.2 i j hne)
          · refine ⟨⟨rfl, rfl, rfl, rfl⟩, ?_, ?_⟩
            · intro a b hab
              by_cases hab2 : a = r ∧ b = c
              · obtain ⟨rfl, rfl⟩ := hab2
                have hab3 : updf g.visible a b (Vis.revealed (g.board a b)) a b =
                    Vis.hidden := hab
                rw [updf_self] at hab3
                cases hab3
              · have hab3 : updf g.visible r c (Vis.revealed (g.board r c)) a b =
                    Vis.hidden := hab
                rw [updf_ne _ _ _ _ hab2] at hab3
                exact hab3
            · intro a b hab
              by_cases hab2 : a = r ∧ b = c
              · obtain ⟨rfl, rfl⟩ := hab2
                exact ⟨Minesweeper.Reach.start, hg.2⟩
              · have heq : updf g.visible r c (Vis.revealed (g.board r c)) a b =
                    g.visible a b := updf_ne _ _ _ _ hab2
                exact absurd heq hab
          · intro x p hp hx
            unfold Minesweeper.revealStep
            split
            next hxp =>
              obtain ⟨hxs, hxh, hxc⟩ := hx
              refine ⟨static_trans hxs (revealF_static n x p.1 p.2), ?_, ?_⟩
              · intro a b hab
                exact hxh a b (visEvolve_hidden_back (revealF_evolve n x p.1 p.2) hab)
              · intro a b hab
                by_cases hchg : (Minesweeper.revealF n x p.1 p.2).visible a b = x.visible a b
                · rw [hchg] at hab
                  exact hxc a b hab
                · have hres := ih x p.1 p.2 a b hchg
                  have hreachp : g.Reach r c p.1 p.2 :=
                    Minesweeper.Reach.step Minesweeper.Reach.start hzero hp
                      (hxh p.1 p.2 hxp)
                  exact ⟨reach_mono hxs hxh hreachp hres.1, hxh a b hres.2⟩
            next hxp => exact hx
        · rw [if_neg hzero] at hne
          by_cases hij : i = r ∧ j = c
          · obtain ⟨rfl, rfl⟩ := hij
            exact ⟨Minesweeper.Reach.start, hg.2⟩
          · have heq : updf g.visible r c (Vis.revealed (g.board r c)) i j =
                g.visible i j := updf_ne _ _ _ _ hij
            exact absurd heq hne

theorem revealF_start_revealed {n : Nat} {g : Minesweeper} {r c : Nat}
    (hgo : g.game_over = false) (hv : g.visible r c = Vis.hidden)
    (hnm : g.board r c ≠ CellVal.mine) :
    (Minesweeper.revealF (n + 1) g r c).visible r c = Vis.revealed (g.board r c) := by
  rw [revealF_succ]
  have hguard : ¬(g.game_over = true ∨ g.visible r c ≠ Vis.hidden) := by
    simp [hgo, hv]
  rw [if_neg hguard, if_neg hnm, check_win_visible]
  have h1 : ({ g with visible := updf g.visible r c (Vis.revealed (g.board r c)) } :
      Minesweeper).visible r c = Vis.revealed (g.board r c) := by
    show updf g.visible r c (Vis.revealed (g.board r c)) r c = Vis.revealed (g.board r c)
    rw [updf_self]
  by_cases hzero : g.board r c = CellVal.num 0
  · rw [if_pos hzero]
    refine foldl_induction (Minesweeper.revealStep n) (g.get_neighbors r c) _
      (fun x : Minesweeper => x.visible r c = Vis.revealed (g.board r c)) ?_ ?_
    · exact h1
    · intro x p hp hx
      unfold Minesweeper.revealStep
      split
      · rw [visEvolve_nonhidden (revealF_evolve n x p.1 p.2) (by rw [hx]; intro h; cases h)]
        exact hx
      · exact hx
  · rw [if_neg hzero]
    exact h1

/-!
Transport lemmas and the safe-cells-done argument used by the win check.
-/

theorem fold_evolve (n : Nat) (l : List (Nat × Nat)) (a : Minesweeper) :
    a.SameStatic (l.foldl (Minesweeper.revealStep n) a) ∧
      a.VisEvolve (l.foldl (Minesweeper.revealStep n) a) := by
  refine foldl_induction _ l a (fun x : Minesweeper => a.SameStatic x ∧ a.VisEvolve x)
    ⟨static_refl a, visEvolve_refl a⟩ ?_
  intro x p hp hx
  unfold Minesweeper.revealStep
  split
  · have hb := revealF_basic n x p.1 p.2
    exact ⟨static_trans hx.1 hb.1, visEvolve_trans hx.2 hb.2 hx.1.2.2.2⟩
  · exact hx

theorem mineCount_congr {g h : Minesweeper} (hs : g.SameStatic h) :
    h.mineCount = g.mineCount := by
  unfold Minesweeper.mineCount
  rw [hs.1, hs.2.1, hs.2.2.2]

theorem safeDone_congr {g h : Minesweeper} (hs : g.SameStatic h) (hv : h.visible = g.visible)
    (hsd : g.SafeDone) : h.SafeDone := by
  intro i j hi hj hb
  rw [hs.1] at hi
  rw [hs.2.1] at hj
  rw [hs.2.2.2] at hb
  rw [hv]
  exact hsd i j hi hj hb

theorem safeDone_of_hiddenCount {g : Minesweeper} (hmh : g.MinesHidden)
    (hnm : g.num_mines = g.mineCount) (hcnt : g.hiddenCount = g.num_mines) : g.SafeDone := by
  have hsub : ((Finset.range g.rows) ×ˢ (Finset.range g.cols)).filter
        (fun p => g.board p.1 p.2 = CellVal.mine) ⊆
      ((Finset.range g.rows) ×ˢ (Finset.range g.cols)).filter
        (fun p => g.visible p.1 p.2 = Vis.hidden) := by
    intro p hp
    simp only [Finset.mem_filter, Finset.mem_product, Finset.mem_range] at hp ⊢
    exact ⟨hp.1, hmh p.1 p.2 hp.1.1 hp.1.2 hp.2⟩
  have hle : (((Finset.range g.rows) ×ˢ (Finset.range g.cols)).filter
        (fun p => g.visible p.1 p.2 = Vis.hidden)).card ≤
      (((Finset.range g.rows) ×ˢ (Finset.range g.cols)).filter
        (fun p => g.board p.1 p.2 = CellVal.mine)).card := by
    have h1 : g.hiddenCount = g.mineCount := hcnt.trans hnm
    unfold Minesweeper.hiddenCount Minesweeper.mineCount at h1
    omega
  have heq := Finset.eq_of_subset_of_card_le hsub hle
  intro i j hi hj hb hvis
  have hmem : ((i, j) : Nat × Nat) ∈ ((Finset.range g.rows) ×ˢ (Finset.range g.cols)).filter
      (fun p => g.visible p.1 p.2 = Vis.hidden) := by
    simp only [Finset.mem_filter, Finset.mem_product, Finset.mem_range]
    exact ⟨⟨hi, hj⟩, hvis⟩
  rw [← heq] at hmem
  simp only [Finset.mem_filter] at hmem
  exact hb hmem.2

theorem minesHidden_setVis {g : Minesweeper} {r c : Nat} {v : Vis}
    (hm : g.board r c ≠ CellVal.mine) (hmh : g.MinesHidden) :
    Minesweeper.MinesHidden { g with visible := updf g.visible r c v } := by
  intro i j hi hj hb
  show updf g.visible r c v i j = Vis.hidden
  have hne : ¬(i = r ∧ j = c) := by
    rintro ⟨rfl, rfl⟩
    exact hm hb
  rw [updf_ne _ _ _ _ hne]
  exact hmh i j hi hj hb

theorem minesHidden_revealF (fuel : Nat) {x : Minesweeper} {q1 q2 : Nat} (hz : x.ZeroWF)
    (h1 : q1 < x.rows) (h2 : q2 < x.cols) (hm : x.board q1 q2 ≠ CellVal.mine)
    (hmh : x.MinesHidden) : (Minesweeper.revealF fuel x q1 q2).MinesHidden := by
  intro i j hi hj hb
  have hs := revealF_static fuel x q1 q2
  rw [hs.1] at hi
  rw [hs.2.1] at hj
  rw [hs.2.2.2] at hb
  rw [revealF_mines_vis fuel x q1 q2 hz h1 h2 hm i j hb]
  exact hmh i j hi hj hb

theorem hiddenCount_pos {g : Minesweeper} {i j : Nat} (hi : i < g.rows) (hj : j < g.cols)
    (hv : g.visible i j = Vis.hidden) : 0 < g.hiddenCount := by
  unfold Minesweeper.hiddenCount
  refine Finset.card_pos.mpr ⟨(i, j), ?_⟩
  simp only [Finset.mem_filter, Finset.mem_product, Finset.mem_range]
  exact ⟨⟨hi, hj⟩, hv⟩

/-!
The main invariant of a reveal call on a non-mine cell of a
well-formed board with all mines hidden: the win check can only fire
once every safe cell is done, and every zero cell revealed during the
call has had its whole neighborhood processed.
-/

theorem revealF_main : ∀ (fuel : Nat) (g : Minesweeper) (r c : Nat),
    g.ZeroWF → g.num_mines = g.mineCount → g.MinesHidden →
    (g.game_over = true → g.SafeDone) →
    r < g.rows → c < g.cols → g.board r c ≠ CellVal.mine →
    g.hiddenCount < fuel →
    ((Minesweeper.revealF fuel g r c).game_over = true →
      (Minesweeper.revealF fuel g r c).SafeDone) ∧
    (∀ a b, a < g.rows → b < g.cols → g.visible a b = Vis.hidden →
      g.board a b = CellVal.num 0 →
      (∃ v, (Minesweeper.revealF fuel g r c).visible a b = Vis.revealed v) →
      ∀ p ∈ g.get_neighbors a b,
        (Minesweeper.revealF fuel g r c).visible p.1 p.2 ≠ Vis.hidden) := by
  intro fuel
  induction fuel with
  | zero =>
    intro g r c _ _ _ _ _ _ _ hfuel
    exact absurd hfuel (Nat.not_lt_zero _)
  | succ n ih =>
    intro g r c hz hnm hmh hgos hr hc hnotmine hfuel
    by_cases hg : g.game_over = true ∨ g.visible r c ≠ Vis.hidden
    · rw [revealF_succ, if_pos hg]
      constructor
      · exact hgos
      · intro a b ha hb hvisab hzab hex p hp
        obtain ⟨v, hrev⟩ := hex
        rw [hvisab] at hrev
        cases hrev
    · rw [revealF_succ, if_neg hg]
      push_neg at hg
      obtain ⟨hgo', hvis⟩ := hg
      have hgo : g.game_over = false := by
        cases hgov : g.game_over
        · rfl
        · exact absurd hgov hgo'
      rw [if_neg hnotmine]
      set g1 : Minesweeper :=
        { g with visible := updf g.visible r c (Vis.revealed (g.board r c)) } with hg1
      have hg1static : g.SameStatic g1 := ⟨rfl, rfl, rfl, rfl⟩
      have hg1hc : g1.hiddenCount + 1 = g.hiddenCount := by
        rw [hg1]
        exact hiddenCount_updf hr hc hvis (by intro h; cases h)
      have hcg : g.hiddenCount ≤ n := by omega
      by_cases hzero : g.board r c = CellVal.num 0
      · rw [if_pos hzero]
        let P : Minesweeper → Prop := fun x =>
          g.SameStatic x ∧ g.VisEvolve x ∧ x.MinesHidden ∧
          (x.game_over = true → x.SafeDone) ∧ x.hiddenCount < n ∧
          (∀ a b, a < g.rows → b < g.cols → ¬(a = r ∧ b = c) →
            g.visible a b = Vis.hidden → g.board a b = CellVal.num 0 →
            (∃ v, x.visible a b = Vis.revealed v) →
            ∀ p ∈ g.get_neighbors a b, x.visible p.1 p.2 ≠ Vis.hidden)
        have hstep : ∀ (x : Minesweeper) (q : Nat × Nat), q ∈ g.get_neighbors r c → P x →
            P (Minesweeper.revealStep n x q) ∧
            (Minesweeper.revealStep n x q).visible q.1 q.2 ≠ Vis.hidden := by
          intro x q hq hx
          obtain ⟨hxs, hxe, hxm, hxgs, hxhc, hxcl⟩ := hx
          have hqr := get_neighbors_inRange hq
          have hqnm : g.board q.1 q.2 ≠ CellVal.mine := hz r c hr hc hzero q hq
          unfold Minesweeper.revealStep
          by_cases hxq : x.visible q.1 q.2 = Vis.hidden
          · rw [if_pos hxq]
            have hxz : x.ZeroWF := zeroWF_congr hxs hz
            have hxnm2 : x.num_mines = x.mineCount := by
              rw [hxs.2.2.1, mineCount_congr hxs]
              exact hnm
            have hq1 : q.1 < x.rows := by rw [hxs.1]; exact hqr.1
            have hq2 : q.2 < x.cols := by rw [hxs.2.1]; exact hqr.2
            have hqm : x.board q.1 q.2 ≠ CellVal.mine := by rw [hxs.2.2.2]; exact hqnm
            have hsub := ih x q.1 q.2 hxz hxnm2 hxm hxgs hq1 hq2 hqm hxhc
            have hys : x.SameStatic (Minesweeper.revealF n x q.1 q.2) :=
              revealF_static n x q.1 q.2
            have hye : x.VisEvolve (Minesweeper.revealF n x q.1 q.2) :=
              revealF_evolve n x q.1 q.2
            refine ⟨⟨static_trans hxs hys, visEvolve_trans hxe hye hxs.2.2.2,
              minesHidden_revealF n hxz hq1 hq2 hqm hxm, hsub.1, ?_, ?_⟩, ?_⟩
            · have hmono : (Minesweeper.revealF n x q.1 q.2).hiddenCount ≤ x.hiddenCount :=
                hiddenCount_mono hys.1 hys.2.1 hye
              omega
            · intro a b ha hb hne hga hgz hex p hp
              by_cases hxa : x.visible a b = Vis.hidden
              · have ha' : a < x.rows := by rw [hxs.1]; exact ha
                have hb' : b < x.cols := by rw [hxs.2.1]; exact hb
                have hz' : x.board a b = CellVal.num 0 := by rw [hxs.2.2.2]; exact hgz
                have hxn : x.get_neighbors a b = g.get_neighbors a b := get_neighbors_congr hxs a b
                exact hsub.2 a b ha' hb' hxa hz' hex p (by rw [hxn]; exact hp)
              · have hex2 : ∃ v, x.visible a b = Vis.revealed v := by
                  rcases hxe a b with hsame | hflip
                  · exact absurd (hsame.trans hga) hxa
                  · exact ⟨_, hflip.2⟩
                have hcl := hxcl a b ha hb hne hga hgz hex2 p hp
                intro hyp
                exact hcl (visEvolve_hidden_back hye hyp)
            · cases hxgov : x.game_over
              · have hpos : 0 < x.hiddenCount := hiddenCount_pos hq1 hq2 hxq
                cases n with
                | zero => omega
                | succ m =>
                  rw [revealF_start_revealed hxgov hxq hqm]
                  intro hcon
                  cases hcon
              · rw [revealF_gameOver hxgov]
                exact hxgs hxgov q.1 q.2 hq1 hq2 hqm
          · rw [if_neg hxq]
            exact ⟨⟨hxs, hxe, hxm, hxgs, hxhc, hxcl⟩, hxq⟩
        have hfold : ∀ (l : List (Nat × Nat)), (∀ p ∈ l, p ∈ g.get_neighbors r c) →
            ∀ (x : Minesweeper), P x →
            P (l.foldl (Minesweeper.revealStep n) x) ∧
            (∀ p ∈ l, (l.foldl (Minesweeper.revealStep n) x).visible p.1 p.2 ≠ Vis.hidden) := by
          intro l
          induction l with
          | nil =>
            intro _ x hx
            exact ⟨hx, fun p hp => absurd hp (List.not_mem_nil p)⟩
          | cons q rest ihl =>
            intro hsubl x hx
            rw [List.foldl_cons]
            have hq : q ∈ g.get_neighbors r c := hsubl q (List.mem_cons_self q rest)
            have hstepq := hstep x q hq hx
            have hrest := ihl (fun p hp => hsubl p (List.mem_cons_of_mem q hp))
              (Minesweeper.revealStep n x q) hstepq.1
            refine ⟨hrest.1, ?_⟩
            intro p hp
            rcases List.mem_cons.1 hp with heq | hp2
            · subst heq
              have hev := (fold_evolve n rest (Minesweeper.revealStep n x p)).2
              intro hcon
              exact hstepq.2 (visEvolve_hidden_back hev hcon)
            · exact hrest.2 p hp2
        have hPg1 : P g1 := by
          refine ⟨hg1static, ?_, ?_, ?_, ?_, ?_⟩
          · rw [hg1]
            exact visEvolve_updf hvis
          · rw [hg1]
            exact minesHidden_setVis hnotmine hmh
          · intro hcon
            have hcon2 : g.game_over = true := hcon
            rw [hgo] at hcon2
            cases hcon2
          · omega
          · intro a b ha hb hne hga hgz hex p hp
            obtain ⟨v, hrev⟩ := hex
            have hrev2 : updf g.visible r c (Vis.revealed (g.board r c)) a b =
                Vis.revealed v := hrev
            rw [updf_ne _ _ _ _ hne, hga] at hrev2
            cases hrev2
        have hmain := hfold (g.get_neighbors r c) (fun p hp => hp) g1 hPg1
        obtain ⟨⟨hFs, hFe, hFm, hFgs, hFhc, hFcl⟩, hFnb⟩ := hmain
        constructor
        · intro hgo2
          rcases check_win_go_inv hgo2 with h1 | h1
          · exact safeDone_congr (check_win_static _) (check_win_visible _) (hFgs h1)
          · refine safeDone_congr (check_win_static _) (check_win_visible _) ?_
            refine safeDone_of_hiddenCount hFm ?_ h1
            rw [hFs.2.2.1, mineCount_congr hFs]
            exact hnm
        · intro a b ha hb hga hgz hex p hp
          rw [check_win_visible]
          by_cases hab : a = r ∧ b = c
          · obtain ⟨rfl, rfl⟩ := hab
            exact hFnb p hp
          · refine hFcl a b ha hb hab hga hgz ?_ p hp
            obtain ⟨v, hrev⟩ := hex
            rw [check_win_visible] at hrev
            exact ⟨v, hrev⟩
      · rw [if_neg hzero]
        constructor
        · intro hgo2
          rcases check_win_go_inv hgo2 with h1 | h1
          · have h1g : g.game_over = true := h1
            rw [hgo] at h1g
            cases h1g
          · refine safeDone_congr (check_win_static _) (check_win_visible _) ?_
            refine safeDone_of_hiddenCount ?_ ?_ h1
            · rw [hg1]
              exact minesHidden_setVis hnotmine hmh
            · exact hnm
        · intro a b ha hb hga hgz hex p hp
          obtain ⟨v, hrev⟩ := hex
          have hne : ¬(a = r ∧ b = c) := by
            rintro ⟨rfl, rfl⟩
            exact hzero hgz
          rw [check_win_visible] at hrev
          have hrev2 : updf g.visible r c (Vis.revealed (g.board r c)) a b =
              Vis.revealed v := hrev
          rw [updf_ne _ _ _ _ hne, hga] at hrev2
          cases hrev2

theorem zeroWF_of_numbersWF {g : Minesweeper} (h : g.NumbersWF) : g.ZeroWF := by
  intro i j hi hj hb p hp hm
  have hnb : g.board i j ≠ CellVal.mine := by
    rw [hb]
    intro hcon
    cases hcon
  have heq := h i j hi hj hnb
  rw [hb] at heq
  have hadj : g.mineAdj i j = 0 := by
    injection heq with h2
    omega
  unfold Minesweeper.mineAdj at hadj
  rw [List.countP_eq_zero] at hadj
  have hcon := hadj p hp
  rw [hm] at hcon
  simp at hcon

theorem reveal_reach_revealed {g : Minesweeper} {r c : Nat} (hgo : g.game_over = false)
    (hr : r < g.rows) (hc : c < g.cols) (hvis : g.visible r c = Vis.hidden)
    (hz0 : g.board r c = CellVal.num 0) (hz : g.ZeroWF)
    (hnm : g.num_mines = g.mineCount) (hmh : g.MinesHidden) :
    ∀ {i j : Nat}, g.Reach r c i j →
      ∃ v, (g.reveal r c).visible i j = Vis.revealed v := by
  have hnotmine : g.board r c ≠ CellVal.mine := by
    rw [hz0]
    intro hcon
    cases hcon
  have hfuel : g.hiddenCount < g.rows * g.cols + 1 :=
    Nat.lt_succ_of_le (hiddenCount_le g)
  have hmain := revealF_main (g.rows * g.cols + 1) g r c hz hnm hmh
    (by intro h; rw [hgo] at h; cases h) hr hc hnotmine hfuel
  intro i j hreach
  induction hreach with
  | start => exact ⟨g.board r c, revealF_start_revealed hgo hvis hnotmine⟩
  | step h1 hb hmem hhid ihh =>
    obtain ⟨v, hvz⟩ := ihh
    have hzr := reach_inRange hr hc h1
    have hzh := reach_hidden hvis h1
    have hnonhid := hmain.2 _ _ hzr.1 hzr.2 hzh hb ⟨v, hvz⟩ _ hmem
    have hev := revealF_evolve (g.rows * g.cols + 1) g r c
    rcases hev _ _ with hsame | hflip
    · exact absurd (hsame.trans hhid) hnonhid
    · exact ⟨_, hflip.2⟩

/-- C5 (amended): in an in-progress game whose stored adjacency numbers
are correct, whose mine counter equals the true number of hazards, and
in which every hazard cell is still Hidden (in particular no hazard is
Flagged), revealing a Hidden zero-adjacency cell (r, c) reveals exactly
the Reach closure of (r, c): the connected region of zero-adjacency
cells containing (r, c), connected through Hidden cells by the up-to-8
neighbor relation, together with the Hidden cells (the bordering
numbered cells) adjacent to that region — and nothing else.  Flagged
cells are never revealed: a cell is flagged after the call exactly when
it was flagged before. -/
theorem c5_cascade (g : Minesweeper) (r c : Nat)
    (hgo : g.game_over = false) (hr : r < g.rows) (hc : c < g.cols)
    (hvis : g.visible r c = Vis.hidden) (hz0 : g.board r c = CellVal.num 0)
    (hWF : g.NumbersWF) (hnm : g.num_mines = g.mineCount) (hmh : g.MinesHidden) :
    ∀ i j : Nat,
      ((∃ v, (g.reveal r c).visible i j = Vis.revealed v) ↔
        (∃ v, g.visible i j = Vis.revealed v) ∨ g.Reach r c i j) ∧
      ((g.reveal r c).visible i j = Vis.flagged ↔ g.visible i j = Vis.flagged) := by
  have hz := zeroWF_of_numbersWF hWF
  have hev := revealF_evolve (g.rows * g.cols + 1) g r c
  intro i j
  unfold Minesweeper.reveal
  constructor
  · constructor
    · rintro ⟨v, hv⟩
      by_cases hchg :
          (Minesweeper.revealF (g.rows * g.cols + 1) g r c).visible i j = g.visible i j
      · left
        exact ⟨v, by rw [← hchg]; exact hv⟩
      · right
        exact (revealF_changed _ g r c i j hchg).1
    · intro h
      rcases h with ⟨v, hv⟩ | hreach
      · rcases hev i j with hsome | hflip
        · exact ⟨v, by rw [hsome]; exact hv⟩
        · rw [hflip.1] at hv
          cases hv
      · exact reveal_reach_revealed hgo hr hc hvis hz0 hz hnm hmh hreach
  · exact visEvolve_flagged_iff hev i j

/-!
Unfolding equations for flag and the no-Lost lemma for the cascade.
-/

theorem flag_eq_hidden {g : Minesweeper} {r c : Nat} (hgo : g.game_over = false)
    (hv : g.visible r c = Vis.hidden) :
    g.flag r c = { g with visible := updf g.visible r c Vis.flagged } := by
  unfold Minesweeper.flag
  rw [if_neg (by simp [hgo, hv]), if_pos hv]

theorem flag_eq_flagged {g : Minesweeper} {r c : Nat} (hgo : g.game_over = false)
    (hv : g.visible r c = Vis.flagged) :
    g.flag r c = { g with visible := updf g.visible r c Vis.hidden } := by
  unfold Minesweeper.flag
  rw [if_neg (by simp [hgo, hv]), if_neg (by simp [hv]), if_pos hv]

theorem flag_eq_revealed {g : Minesweeper} {r c : Nat} {v : CellVal}
    (hv : g.visible r c = Vis.revealed v) : g.flag r c = g := by
  unfold Minesweeper.flag
  by_cases hgo : g.game_over = true
  · rw [if_pos (Or.inl hgo)]
  · rw [if_pos (Or.inr (by simp [hv]))]

theorem check_win_goWin {g : Minesweeper} (h : g.game_over = true → g.win = true) :
    g.check_win.game_over = true → g.check_win.win = true := by
  unfold Minesweeper.check_win
  split
  · intro
    rfl
  · exact h

theorem revealF_noLost : ∀ (fuel : Nat) (g : Minesweeper) (r c : Nat), g.ZeroWF →
    r < g.rows → c < g.cols → g.board r c ≠ CellVal.mine →
    (g.game_over = true → g.win = true) →
    ((Minesweeper.revealF fuel g r c).game_over = true →
      (Minesweeper.revealF fuel g r c).win = true) := by
  intro fuel
  induction fuel with
  | zero => intro g r c _ _ _ _ h; exact h
  | succ n ih =>
    intro g r c hz hr hc hnm hinv
    rw [revealF_succ]
    by_cases hg : g.game_over = true ∨ g.visible r c ≠ Vis.hidden
    · rw [if_pos hg]
      exact hinv
    · rw [if_neg hg, if_neg hnm]
      by_cases hzero : g.board r c = CellVal.num 0
      · rw [if_pos hzero]
        refine check_win_goWin ?_
        refine foldl_induction _ _ _
          (fun x : Minesweeper => g.SameStatic x ∧ (x.game_over = true → x.win = true))
          ?_ ?_ |>.2
        · exact ⟨⟨rfl, rfl, rfl, rfl⟩, hinv⟩
        · intro x p hp hx
          unfold Minesweeper.revealStep
          split
          · refine ⟨static_trans hx.1 (revealF_static n x p.1 p.2), ?_⟩
            have hpr := get_neighbors_inRange hp
            exact ih x p.1 p.2 (zeroWF_congr hx.1 hz) (by rw [hx.1.1]; exact hpr.1)
              (by rw [hx.1.2.1]; exact hpr.2)
              (by rw [hx.1.2.2.2]; exact hz r c hr hc hzero p hp) hx.2
          · exact hx
      · rw [if_neg hzero]
        exact check_win_goWin hinv

/-!
The claim theorems.
-/

/-- C4: in an in-progress game, revealing a Hidden in-range hazard cell
marks exactly that cell Revealed with the mine value, sets game_over
(the Lost outcome), leaves the win flag as it was, changes no other
cell, and performs no cascade (the board is untouched as well). -/
theorem c4_reveal_mine (g : Minesweeper) (r c : Nat) (hgo : g.game_over = false)
    (hr : r < g.rows) (hc : c < g.cols) (hv : g.visible r c = Vis.hidden)
    (hm : g.board r c = CellVal.mine) :
    (g.reveal r c).visible r c = Vis.revealed CellVal.mine ∧
    (g.reveal r c).game_over = true ∧
    (g.reveal r c).win = g.win ∧
    (∀ i j, ¬(i = r ∧ j = c) → (g.reveal r c).visible i j = g.visible i j) ∧
    (g.reveal r c).board = g.board := by
  unfold Minesweeper.reveal
  rw [revealF_succ]
  have hguard : ¬(g.game_over = true ∨ g.visible r c ≠ Vis.hidden) := by simp [hgo, hv]
  rw [if_neg hguard, if_pos hm]
  refine ⟨?_, rfl, rfl, ?_, rfl⟩
  · show updf g.visible r c (Vis.revealed CellVal.mine) r c = Vis.revealed CellVal.mine
    rw [updf_self]
  · intro i j hij
    show updf g.visible r c (Vis.revealed CellVal.mine) i j = g.visible i j
    rw [updf_ne _ _ _ _ hij]

theorem c4_witness :
    (gameC.reveal 0 0).visible 0 0 = Vis.revealed CellVal.mine ∧
    (gameC.reveal 0 0).game_over = true ∧
    (gameC.reveal 0 0).win = gameC.win ∧
    (∀ i j, ¬(i = 0 ∧ j = 0) → (gameC.reveal 0 0).visible i j = gameC.visible i j) ∧
    (gameC.reveal 0 0).board = gameC.board :=
  c4_reveal_mine gameC 0 0 rfl (by decide) (by decide) rfl (by decide)

/-- C6: once game_over is set (the game is Won or Lost), reveal and
flag are both exact no-ops: they return the state unchanged, so the
terminal states are absorbing. -/
theorem c6_terminal_absorbing (g : Minesweeper) (r c : Nat) (h : g.game_over = true) :
    g.reveal r c = g ∧ g.flag r c = g := by
  constructor
  · exact revealF_gameOver h r c
  · unfold Minesweeper.flag
    rw [if_pos (Or.inl h)]

theorem c6_witness : gameOverState.reveal 0 0 = gameOverState ∧
    gameOverState.flag 0 0 = gameOverState :=
  c6_terminal_absorbing gameOverState 0 0 rfl

/-- C7: after _calculate_numbers every in-range non-hazard cell stores
exactly the number of hazards among its up-to-8 edge-clipped neighbors,
a number between 0 and 8; hazard cells keep the mine marker; recounting
on the finished board gives the same numbers (mine placement is not
altered by the numbering pass); and neither reveal nor flag ever
modifies the board, so layout and counts are fixed after construction. -/
theorem c7_adjacency (g : Minesweeper) :
    (∀ r c, r < g.rows → c < g.cols →
      (g.board r c ≠ CellVal.mine →
        (g.calculate_numbers).board r c = CellVal.num (g.mineAdj r c) ∧
          g.mineAdj r c ≤ 8) ∧
      (g.board r c = CellVal.mine → (g.calculate_numbers).board r c = CellVal.mine)) ∧
    (∀ r c, (g.calculate_numbers).mineAdj r c = g.mineAdj r c) ∧
    (∀ (h : Minesweeper) (p q : Nat),
      (h.reveal p q).board = h.board ∧ (h.flag p q).board = h.board) := by
  refine ⟨?_, ?_, ?_⟩
  · intro r c hr hc
    constructor
    · intro hnm
      constructor
      · show (if r < g.rows ∧ c < g.cols ∧ g.board r c ≠ CellVal.mine
          then CellVal.num (g.mineAdj r c) else g.board r c) = CellVal.num (g.mineAdj r c)
        rw [if_pos ⟨hr, hc, hnm⟩]
      · exact mineAdj_le_8 g r c
    · intro hm
      show (if r < g.rows ∧ c < g.cols ∧ g.board r c ≠ CellVal.mine
        then CellVal.num (g.mineAdj r c) else g.board r c) = CellVal.mine
      rw [if_neg (by rintro ⟨_, _, hcon⟩; exact hcon hm)]
      exact hm
  · intro r c
    unfold Minesweeper.mineAdj
    refine List.countP_congr ?_
    intro p hp
    have hiff : (g.calculate_numbers).board p.1 p.2 = CellVal.mine ↔
        g.board p.1 p.2 = CellVal.mine := by
      show (if p.1 < g.rows ∧ p.2 < g.cols ∧ g.board p.1 p.2 ≠ CellVal.mine
        then CellVal.num (g.mineAdj p.1 p.2) else g.board p.1 p.2) = CellVal.mine ↔ _
      split
      next hcond =>
        constructor
        · intro hcon
          cases hcon
        · intro hcon
          exact absurd hcon hcond.2.2
      next hcond => exact Iff.rfl
    simp [hiff]
  · intro h p q
    exact ⟨(revealF_static _ h p q).2.2.2, (flag_static h p q).2.2.2⟩

/-- C8: in an in-progress game at an in-range cell, toggleFlag sends
Hidden to Flagged and Flagged back to Hidden, is the identity on a
Revealed cell, restores the exact original state when applied twice to
a non-Revealed cell, never changes any other cell, and never changes
the outcome flags or the board. -/
theorem c8_flag_toggle (g : Minesweeper) (r c : Nat) (hgo : g.game_over = false)
    (hr : r < g.rows) (hc : c < g.cols) :
    (g.visible r c = Vis.hidden → (g.flag r c).visible r c = Vis.flagged) ∧
    (g.visible r c = Vis.flagged → (g.flag r c).visible r c = Vis.hidden) ∧
    (∀ v, g.visible r c = Vis.revealed v → g.flag r c = g) ∧
    ((g.visible r c).isRevealed = false → (g.flag r c).flag r c = g) ∧
    (∀ i j, ¬(i = r ∧ j = c) → (g.flag r c).visible i j = g.visible i j) ∧
    (g.flag r c).game_over = g.game_over ∧
    (g.flag r c).win = g.win ∧
    (g.flag r c).board = g.board := by
  refine ⟨?_, ?_, ?_, ?_, ?_, flag_gameOver g r c, flag_win g r c, (flag_static g r c).2.2.2⟩
  · intro hv
    rw [flag_eq_hidden hgo hv]
    show updf g.visible r c Vis.flagged r c = Vis.flagged
    rw [updf_self]
  · intro hv
    rw [flag_eq_flagged hgo hv]
    show updf g.visible r c Vis.hidden r c = Vis.hidden
    rw [updf_self]
  · intro v hv
    exact flag_eq_revealed hv
  · intro hnr
    cases hv : g.visible r c with
    | hidden =>
      rw [flag_eq_hidden hgo hv]
      have hgo2 : Minesweeper.game_over
          { g with visible := updf g.visible r c Vis.flagged } = false := hgo
      have hv2 : Minesweeper.visible
          { g with visible := updf g.visible r c Vis.flagged } r c = Vis.flagged := by
        show updf g.visible r c Vis.flagged r c = Vis.flagged
        rw [updf_self]
      rw [flag_eq_flagged hgo2 hv2]
      show ({ g with visible := updf (updf g.visible r c Vis.flagged) r c Vis.hidden } :
        Minesweeper) = g
      rw [show Vis.hidden = g.visible r c from hv.symm, updf_cancel]
    | flagged =>
      rw [flag_eq_flagged hgo hv]
      have hgo2 : Minesweeper.game_over
          { g with visible := updf g.visible r c Vis.hidden } = false := hgo
      have hv2 : Minesweeper.visible
          { g with visible := updf g.visible r c Vis.hidden } r c = Vis.hidden := by
        show updf g.visible r c Vis.hidden r c = Vis.hidden
        rw [updf_self]
      rw [flag_eq_hidden hgo2 hv2]
      show ({ g with visible := updf (updf g.visible r c Vis.hidden) r c Vis.flagged } :
        Minesweeper) = g
      rw [show Vis.flagged = g.visible r c from hv.symm, updf_cancel]
    | revealed v =>
      rw [hv] at hnr
      cases hnr
  · intro i j hij
    by_cases hv : g.visible r c = Vis.hidden
    · rw [flag_eq_hidden hgo hv]
      show updf g.visible r c Vis.flagged i j = g.visible i j
      rw [updf_ne _ _ _ _ hij]
    · by_cases hv2 : g.visible r c = Vis.flagged
      · rw [flag_eq_flagged hgo hv2]
        show updf g.visible r c Vis.hidden i j = g.visible i j
        rw [updf_ne _ _ _ _ hij]
      · cases hv3 : g.visible r c with
        | hidden => exact absurd hv3 hv
        | flagged => exact absurd hv3 hv2
        | revealed v => rw [flag_eq_revealed hv3]

theorem c8_witness :
    ((gameC.visible 0 1 = Vis.hidden → (gameC.flag 0 1).visible 0 1 = Vis.flagged) ∧
    (gameC.visible 0 1 = Vis.flagged → (gameC.flag 0 1).visible 0 1 = Vis.hidden) ∧
    (∀ v, gameC.visible 0 1 = Vis.revealed v → gameC.flag 0 1 = gameC) ∧
    ((gameC.visible 0 1).isRevealed = false → (gameC.flag 0 1).flag 0 1 = gameC) ∧
    (∀ i j, ¬(i = 0 ∧ j = 1) → (gameC.flag 0 1).visible i j = gameC.visible i j) ∧
    (gameC.flag 0 1).game_over = gameC.game_over ∧
    (gameC.flag 0 1).win = gameC.win ∧
    (gameC.flag 0 1).board = gameC.board) :=
  c8_flag_toggle gameC 0 1 rfl (by decide) (by decide)

/-- C10: the neighbor enumeration used by the cascade yields only
in-range coordinates, so a reveal at an in-range coordinate never
indexes outside the grid; and on a board whose zero cells have no
hazard neighbors, a reveal of a non-hazard cell never changes any
hazard cell's visibility (the cascade never reveals a hazard) and can
only end the game by winning, never by losing. -/
theorem c10_cascade_safety (g : Minesweeper) (r c : Nat) (hz : g.ZeroWF)
    (hr : r < g.rows) (hc : c < g.cols) :
    (∀ p ∈ g.get_neighbors r c, p.1 < g.rows ∧ p.2 < g.cols) ∧
    (g.board r c ≠ CellVal.mine →
      (∀ i j, g.board i j = CellVal.mine →
        (g.reveal r c).visible i j = g.visible i j) ∧
      (g.game_over = false →
        (g.reveal r c).game_over = true → (g.reveal r c).win = true)) := by
  refine ⟨fun p hp => get_neighbors_inRange hp, fun hnm => ⟨?_, ?_⟩⟩
  · intro i j hm
    exact revealF_mines_vis _ g r c hz hr hc hnm i j hm
  · intro hgo
    exact revealF_noLost _ g r c hz hr hc hnm (by intro h; rw [hgo] at h; cases h)

theorem c10_witness :
    ((∀ p ∈ gameC.get_neighbors 1 1, p.1 < gameC.rows ∧ p.2 < gameC.cols) ∧
    (gameC.board 1 1 ≠ CellVal.mine →
      (∀ i j, gameC.board i j = CellVal.mine →
        (gameC.reveal 1 1).visible i j = gameC.visible i j) ∧
      (gameC.game_over = false →
        (gameC.reveal 1 1).game_over = true → (gameC.reveal 1 1).win = true))) :=
  c10_cascade_safety gameC 1 1
    (by
      intro i j hi hj hb p hp hm
      have hi2 : i < 2 := hi
      have hj2 : j < 2 := hj
      interval_cases i <;> interval_cases j <;> exact absurd hb (by decide))
    (by decide) (by decide)

theorem reachable_static {g₀ g : Minesweeper} (h : Minesweeper.Reachable g₀ g) :
    g₀.SameStatic g := by
  induction h with
  | refl => exact static_refl _
  | reveal r c hR hrr hcc ih => exact static_trans ih (revealF_static _ _ r c)
  | flag r c hR hrr hcc ih => exact static_trans ih (flag_static _ r c)

/-- C9: from a freshly constructed engine (all cells Hidden, flags
cleared) with a well-formed board, no reachable state is simultaneously
Won and Lost: whenever the win flag is set, no hazard cell is Revealed
(the losing branch of reveal returns before the win check, and once a
hazard is revealed the game is over and nothing further changes). -/
theorem c9_win_lost_exclusive (g₀ g : Minesweeper) (hInit : g₀.InitialState)
    (hz : g₀.ZeroWF) (hR : Minesweeper.Reachable g₀ g) :
    g.win = true →
      ∀ i j, i < g.rows → j < g.cols → g.board i j = CellVal.mine →
        (g.visible i j).isRevealed = false := by
  suffices hInv : (g.win = true → g.game_over = true) ∧
      (∀ i j, i < g.rows → j < g.cols → g.board i j = CellVal.mine →
        ((∃ v, g.visible i j = Vis.revealed v) → g.game_over = true) ∧
        (g.win = true → ∀ v, g.visible i j ≠ Vis.revealed v)) by
    intro hwin i j hi hj hb
    have hnr := (hInv.2 i j hi hj hb).2 hwin
    cases hvv : g.visible i j with
    | hidden => rfl
    | flagged => rfl
    | revealed v => exact absurd hvv (hnr v)
  induction hR with
  | refl =>
    constructor
    · intro hwin
      rw [hInit.2.2] at hwin
      cases hwin
    · intro i j hi hj hb
      constructor
      · intro hex
        obtain ⟨v, hv⟩ := hex
        rw [hInit.1 i j] at hv
        cases hv
      · intro hwin
        rw [hInit.2.2] at hwin
        cases hwin
  | @reveal x r c hRx hrr hcc ih =>
    have hstat := reachable_static hRx
    have hzx : x.ZeroWF := zeroWF_congr hstat hz
    by_cases hgox : x.game_over = true
    · have he : x.reveal r c = x := by
        unfold Minesweeper.reveal
        exact revealF_gameOver hgox r c
      rw [he]
      exact ih
    · by_cases hvx : x.visible r c = Vis.hidden
      · by_cases hmx : x.board r c = CellVal.mine
        · have he : x.reveal r c =
              { x with game_over := true,
                       visible := updf x.visible r c (Vis.revealed CellVal.mine) } := by
            unfold Minesweeper.reveal
            rw [revealF_succ, if_neg (by simp [hgox, hvx]), if_pos hmx]
          rw [he]
          constructor
          · intro
            rfl
          · intro i j hi hj hb
            refine ⟨fun _ => rfl, ?_⟩
            intro hwin
            have hxw : x.win = true := hwin
            exact absurd (ih.1 hxw) hgox
        · unfold Minesweeper.reveal
          have hmv := revealF_mines_vis (x.rows * x.cols + 1) x r c hzx hrr hcc hmx
          constructor
          · exact revealF_winGO _ x r c ih.1
          · intro i j hi hj hb
            have hsx := revealF_static (x.rows * x.cols + 1) x r c
            rw [hsx.1] at hi
            rw [hsx.2.1] at hj
            rw [hsx.2.2.2] at hb
            have hveq := hmv i j hb
            constructor
            · intro hex
              obtain ⟨v, hv⟩ := hex
              rw [hveq] at hv
              exact absurd ((ih.2 i j hi hj hb).1 ⟨v, hv⟩) hgox |> False.elim
            · intro hwin v
              rw [hveq]
              intro hv
              exact hgox ((ih.2 i j hi hj hb).1 ⟨v, hv⟩)
      · have he : x.reveal r c = x := by
          unfold Minesweeper.reveal
          rw [revealF_succ, if_pos (Or.inr hvx)]
        rw [he]
        exact ih
  | @flag x r c hRx hrr hcc ih =>
    constructor
    · intro hwin
      rw [flag_win] at hwin
      rw [flag_gameOver]
      exact ih.1 hwin
    · intro i j hi hj hb
      have hsx := flag_static x r c
      rw [hsx.1] at hi
      rw [hsx.2.1] at hj
      rw [hsx.2.2.2] at hb
      constructor
      · intro hex
        obtain ⟨v, hv⟩ := hex
        rw [flag_revealed_iff] at hv
        rw [flag_gameOver]
        exact (ih.2 i j hi hj hb).1 ⟨v, hv⟩
      · intro hwin v
        rw [flag_win] at hwin
        intro hv
        rw [flag_revealed_iff] at hv
        exact (ih.2 i j hi hj hb).2 hwin v hv

theorem c9_witness : ((gameD.reveal 0 1).visible 0 0).isRevealed = false :=
  c9_win_lost_exclusive gameD (gameD.reveal 0 1) ⟨fun _ _ => rfl, rfl, rfl⟩
    (by
      intro i j hi hj hb p hp hm
      have hi2 : i < 1 := hi
      have hj2 : j < 2 := hj
      interval_cases i <;> interval_cases j <;> exact absurd hb (by decide))
    (Minesweeper.Reachable.reveal 0 1 (Minesweeper.Reachable.refl gameD)
      (by decide) (by decide))
    (by decide) 0 0 (by decide) (by decide) (by decide)

theorem c5_witness :
    ((∃ v, (gameB.reveal 0 2).visible 0 3 = Vis.revealed v) ↔
      (∃ v, gameB.visible 0 3 = Vis.revealed v) ∨ gameB.Reach 0 2 0 3) ∧
    ((gameB.reveal 0 2).visible 0 3 = Vis.flagged ↔ gameB.visible 0 3 = Vis.flagged) :=
  c5_cascade gameB 0 2 rfl (by decide) (by decide) rfl (by decide)
    (by
      intro i j hi hj hb
      have hi2 : i < 1 := hi
      have hj2 : j < 5 := hj
      interval_cases i <;> interval_cases j <;>
        first
          | decide
          | exact absurd (by decide) hb)
    (by decide) (fun _ _ _ _ _ => rfl) 0 3

/-- C5 counterexample: on the 1 x 5 board with one mine at (0,4), after
the mine is flagged the game is in progress, (0,2) is a Hidden
zero-adjacency cell, and (0,3) is the numbered cell bordering its zero
region ((0,3) is in the Reach closure of (0,2)); yet after reveal(0,2)
the cell (0,3) is still Hidden, because the flag-skewed win check fires
in the middle of the cascade and the remaining recursive reveals are
cut off by the game_over guard.  So the cascade of the code does not
reveal the full bordered region claimed. -/
theorem c5_counterexample :
    gameB1.game_over = false ∧
    gameB1.visible 0 2 = Vis.hidden ∧
    gameB1.board 0 2 = CellVal.num 0 ∧
    gameB1.board 0 3 = CellVal.num 1 ∧
    ((0, 3) ∈ gameB1.get_neighbors 0 2) ∧
    gameB1.visible 0 3 = Vis.hidden ∧
    gameB1.Reach 0 2 0 3 ∧
    gameB2.visible 0 3 = Vis.hidden ∧
    gameB2.win = true ∧
    gameB1.board 0 4 = CellVal.mine ∧
    gameB1.visible 0 4 = Vis.flagged := by
  refine ⟨by decide, by decide, by decide, by decide, by decide, by decide, ?_,
    by decide, by decide, by decide, by decide⟩
  exact Minesweeper.Reach.step Minesweeper.Reach.start (by decide) (by decide) (by decide)

/-- C1: evaluation of the win check at a reachable state, refuting the
claim: on the 1 x 3 board with one mine at (0,0), after flagging the
safe cell (0,2) and revealing the safe cell (0,1), check_win counts
only the Hidden cells (one, the mine) and declares the game Won,
although the non-hazard cell (0,2) is Flagged, not Revealed.  The code
counts cells equal to the blank marker only, not blank-or-flagged. -/
theorem c1_win_check_eval :
    gameA1.game_over = false ∧
    gameA2.win = true ∧
    gameA2.game_over = true ∧
    gameA2.board 0 2 = CellVal.num 0 ∧
    gameA2.visible 0 2 = Vis.flagged ∧
    gameA2.visible 0 1 = Vis.revealed (CellVal.num 1) ∧
    gameA2.visible 0 0 = Vis.hidden ∧
    gameA2.hiddenCount = gameA2.num_mines := by
  refine ⟨?_, ?_, ?_, ?_, ?_, ?_, ?_, ?_⟩ <;> decide

/-- C2: evaluation of reveal and flag at negative coordinates, refuting
the claim: on the 2 x 2 board with one mine at (0,0), reveal(-1,-1)
raises no error and silently reveals cell (1,1), and flag(-1,0)
silently flags cell (1,0): Python negative indices wrap around to the
last row and column instead of failing. -/
theorem c2_out_of_range_eval :
    gameC.game_over = false ∧
    gameC.visible 1 1 = Vis.hidden ∧
    gameC.visible 1 0 = Vis.hidden ∧
    (gameC.revealPy (-1) (-1)).map (fun h => h.visible 1 1) =
      some (Vis.revealed (CellVal.num 1)) ∧
    (gameC.revealPy (-1) (-1)).isSome = true ∧
    (gameC.flagPy (-1) 0).map (fun h => h.visible 1 0) = some Vis.flagged ∧
    (gameC.flagPy (-1) 0).isSome = true := by
  refine ⟨?_, ?_, ?_, ?_, ?_, ?_, ?_⟩ <;> decide

/-- C3: the constructor validates nothing, refuting the claim: with
rows = cols = 1 and num_mines = 2, every random draw is (0,0) and
mines_placed never reaches 2, so the placement loop outlives any finite
stream of draws (it never terminates); and with num_mines = 1 =
rows * cols, construction succeeds instead of failing with an
InvalidConfiguration error. -/
theorem c3_no_validation (picks : List (Nat × Nat))
    (hp : ∀ p ∈ picks, p = ((0 : Nat), (0 : Nat))) :
    Minesweeper.init 1 1 2 picks = none ∧
    (Minesweeper.init 1 1 1 [(0, 0)]).isSome = true := by
  constructor
  · have haux : ∀ (l : List (Nat × Nat)) (b : Nat → Nat → CellVal) (placed : Nat),
        (∀ p ∈ l, p = ((0 : Nat), (0 : Nat))) →
        (b 0 0 = CellVal.mine → placed ≤ 1) →
        (b 0 0 ≠ CellVal.mine → placed = 0) →
        placeMinesAux 2 l b placed = none := by
      intro l
      induction l with
      | nil =>
        intro b placed h1 h2 h3
        have hlt : ¬(2 ≤ placed) := by
          by_cases hb : b 0 0 = CellVal.mine
          · have := h2 hb
            omega
          · have := h3 hb
            omega
        simp only [placeMinesAux]
        rw [if_neg hlt]
      | cons q rest ihl =>
        intro b placed h1 h2 h3
        have hq : q = ((0 : Nat), (0 : Nat)) := h1 q (List.mem_cons_self q rest)
        subst hq
        have hlt : ¬(2 ≤ placed) := by
          by_cases hb : b 0 0 = CellVal.mine
          · have := h2 hb
            omega
          · have := h3 hb
            omega
        simp only [placeMinesAux]
        rw [if_neg hlt]
        show (if b 0 0 = CellVal.mine then placeMinesAux 2 rest b placed
          else placeMinesAux 2 rest (updf b 0 0 CellVal.mine) (placed + 1)) = none
        by_cases hb : b 0 0 = CellVal.mine
        · rw [if_pos hb]
          exact ihl b placed (fun p hp2 => h1 p (List.mem_cons_of_mem _ hp2)) h2 h3
        · rw [if_neg hb]
          refine ihl _ _ (fun p hp2 => h1 p (List.mem_cons_of_mem _ hp2)) ?_ ?_
          · intro _
            have := h3 hb
            omega
          · intro hcon
            exact absurd (updf_self b 0 0 CellVal.mine) hcon |> False.elim
    unfold Minesweeper.init
    rw [haux picks _ 0 hp (fun _ => by omega) (fun _ => rfl)]
    rfl
  · decide

theorem c3_witness :
    Minesweeper.init 1 1 2 [(0, 0)] = none ∧
    (Minesweeper.init 1 1 1 [(0, 0)]).isSome = true :=
  c3_no_validation [(0, 0)] (by decide)
